import Mathlib

/-!
Verification of the instanton lattice Monte Carlo repository.

The definitions below are a shallow embedding of the Python sources under
`src/`.  Machine floating-point arithmetic is modelled by exact rational
(or, where square roots and exponentials are intrinsic, real) arithmetic.
Functions living in utility modules that are not part of `src/`
(`utility_monte_carlo`, `utility_rilm`, `input_parameters`) are modelled
from the specification; each such definition carries a doc comment
starting with `Modelled from the spec:`.
-/

/- ----------------------------------------------------------------- -/
/- Streamline solver (src/streamline_iilm.py)                        -/
/- ----------------------------------------------------------------- -/

/-- Single-instanton action `ansatz_action = 4/3 * x_potential_minimum**3`
(src/streamline_iilm.py line 89). -/
def ansatzAction (vmin : ℚ) : ℚ := 4 / 3 * vmin ^ 3

/-- Modelled from the spec: `utility_rilm.ansatz_instanton_conf` is not under
`src/`; only the length of its output matters for the padding and bounds
facts proved here.  The builder evaluates the summed one-instanton tanh
profile on the Euclidean time grid and returns those grid values together
with the trailing periodic endpoint, i.e. `nGrid + 1` values.  This is the
output length under which the in-src padding of
src/streamline_iilm.py lines 74-80 realises the spec's "two ghost points on
each boundary" and under which the in-src slices `x_config[2:-1]` (action)
and `x_config.size - 4` (detector length argument) are consistent. -/
def ansatzConfLength (nGrid : ℕ) : ℕ := nGrid + 1

/-- Ghost-point padding of the initial streamline configuration,
src/streamline_iilm.py lines 74-80:
`np.insert(x, 0, x[0])` twice, then `x[-1] = x[-2]`, then
`np.append(x, x[-1])`. -/
def padConfig (xs : List ℚ) : List ℚ :=
  let y := xs.getD 0 0 :: xs
  let z := y.getD 0 0 :: y
  let w := z.set (z.length - 1) (z.getD (z.length - 2) 0)
  w ++ [w.getD (w.length - 1) 0]

/-- Five-point finite-difference second derivative `der_2` of
src/streamline_iilm.py lines 103-105. -/
def der2 (dtau : ℚ) (x : List ℚ) (i : ℕ) : ℚ :=
  (-x.getD (i + 2) 0 + 16 * x.getD (i + 1) 0 - 30 * x.getD i 0
      + 16 * x.getD (i - 1) 0 - x.getD (i - 2) 0)
    / (12 * dtau * dtau)

/-- The per-step functional gradient `lambda_derivative`,
src/streamline_iilm.py lines 101-117: entry `i_pos - 2` holds
`-der_2/2 + 4*x[i_pos]*(x[i_pos]*x[i_pos] - vmin*vmin)` for
`i_pos` in `range(2, 2*n_lattice_half + 2)`. -/
def lambdaDerivative (vmin dtau : ℚ) (x : List ℚ) (nLatticeHalf : ℕ) : List ℚ :=
  (List.range (2 * nLatticeHalf)).map (fun k =>
    -der2 dtau x (k + 2) / 2
      + 4 * x.getD (k + 2) 0
        * (x.getD (k + 2) 0 * x.getD (k + 2) 0 - vmin * vmin))

/-- Interior update loop of src/streamline_iilm.py lines 119-120:
`x_config[i_pos] += -lambda_derivative[i_pos - 2] * stream_time_step`
for `i_pos` in `range(2, 2*n_lattice_half + 2)`. -/
def updateInterior (nLatticeHalf : ℕ) (stepSize : ℚ) (x lam : List ℚ) : List ℚ :=
  (List.range x.length).map (fun i =>
    if 2 ≤ i ∧ i < 2 * nLatticeHalf + 2 then
      x.getD i 0 + -(lam.getD (i - 2) 0) * stepSize
    else x.getD i 0)

/-- Ghost-point re-clamping of src/streamline_iilm.py lines 122-125:
`x[0] = x[2]; x[1] = x[2]; x[-1] = x[-3]; x[-2] = x[-3]`, performed
sequentially in place. -/
def clampGhosts (x : List ℚ) : List ℚ :=
  let a := x.set 0 (x.getD 2 0)
  let b := a.set 1 (a.getD 2 0)
  let c := b.set (b.length - 1) (b.getD (b.length - 3) 0)
  c.set (c.length - 2) (c.getD (c.length - 3) 0)

/-- One fictitious-time step of the streamline evolution: gradient
evaluation on the pre-update configuration, interior update, then ghost
re-clamping (src/streamline_iilm.py lines 100-125). -/
def streamStep (vmin dtau stepSize : ℚ) (nLatticeHalf : ℕ) (x : List ℚ) : List ℚ :=
  clampGhosts (updateInterior nLatticeHalf stepSize x (lambdaDerivative vmin dtau x nLatticeHalf))

/-- Recording decision of src/streamline_iilm.py lines 135-144: only at
steps with `i_s > 60000 and i_s % 20 == 0`, and only when the detector
returned exactly one positive and one negative root, append
`|pos_root[0] - neg_root[0]|` to the separation log and
`(current_action - 2*ansatz_action)/ansatz_action` to the action log;
otherwise leave both logs unchanged. -/
def recordStep (vmin : ℚ) (iS : ℕ) (posRoot negRoot : List ℚ)
    (currentAction : ℚ) (tauLog actLog : List ℚ) : List ℚ × List ℚ :=
  if 60000 < iS ∧ iS % 20 = 0 then
    if posRoot.length = 1 ∧ negRoot.length = 1 then
      (tauLog ++ [|posRoot.getD 0 0 - negRoot.getD 0 0|],
       actLog ++ [(currentAction - 2 * ansatzAction vmin) / ansatzAction vmin])
    else (tauLog, actLog)
  else (tauLog, actLog)

/-- The streamline evolution loop of src/streamline_iilm.py lines 95-144.
`actionOf` abstracts `mc.return_action(x_config[2:-1])` and `findRoots`
abstracts `mc.find_instantons(x_config[2:-2], ...)` (both live in
`utility_monte_carlo`, which is not under `src/`).  The state carries the
configuration, the number of executed iterations, and the two recorded
logs (the `tau_writer` and `act_writer` output streams). -/
def streamlineRun (vmin dtau stepSize : ℚ) (nLatticeHalf : ℕ)
    (actionOf : List ℚ → ℚ) (findRoots : List ℚ → List ℚ × List ℚ)
    (nStreamline : ℕ) (x0 : List ℚ) : List ℚ × ℕ × List ℚ × List ℚ :=
  (List.range nStreamline).foldl (fun st iS =>
    let x := streamStep vmin dtau stepSize nLatticeHalf st.1
    let roots := findRoots x
    let logs := recordStep vmin iS roots.1 roots.2 (actionOf x) st.2.2.1 st.2.2.2
    (x, st.2.1 + 1, logs.1, logs.2)) (x0, 0, [], [])

/- ----------------------------------------------------------------- -/
/- Lattice action and cooling (spec 4.1, 4.3; utility_monte_carlo    -/
/- is not under src/)                                                -/
/- ----------------------------------------------------------------- -/

/-- Kinetic part of the local action term at site `j` of a periodic
lattice configuration: `((x[j+1] - x[j-1])/(2*dtau))^2 / 4`. -/
def latKin (dtau : ℚ) {n : ℕ} (c : ZMod n → ℚ) (j : ZMod n) : ℚ :=
  ((c (j + 1) - c (j - 1)) / (2 * dtau)) ^ 2 / 4

/-- Potential part of the local action term at site `j`:
`(x[j]^2 - vmin^2)^2`. -/
def latPot (vmin : ℚ) {n : ℕ} (c : ZMod n → ℚ) (j : ZMod n) : ℚ :=
  (c j ^ 2 - vmin ^ 2) ^ 2

/-- Modelled from the spec: `utility_monte_carlo.return_action` is not
under `src/`.  Spec 4.1: the global Euclidean action sums, over every
site of the periodic lattice, the local term
`1/4*((x[i+1]-x[i-1])/(2*dtau))^2 + (x[i]^2 - vmin^2)^2`. -/
def latAction (dtau vmin : ℚ) {n : ℕ} [NeZero n] (c : ZMod n → ℚ) : ℚ :=
  ∑ j : ZMod n, (latKin dtau c j + latPot vmin c j)

/-- The part of the global action that depends on the value `v` placed at
site `i` (holding all neighbours fixed): the kinetic terms of sites
`i - 1` and `i + 1` and the potential term of site `i`. -/
def localAction (dtau vmin : ℚ) {n : ℕ} (c : ZMod n → ℚ) (i : ZMod n) (v : ℚ) : ℚ :=
  ((v - c (i - 2)) / (2 * dtau)) ^ 2 / 4
    + ((c (i + 2) - v) / (2 * dtau)) ^ 2 / 4
    + (v ^ 2 - vmin ^ 2) ^ 2

/-- Modelled from the spec: `utility_monte_carlo.configuration_cooling` is
not under `src/`.  Spec 4.3: one deterministic relaxation sweep visits
every site in lattice order and replaces `x[site]` by the value minimising
the local action holding neighbours fixed.  The chosen value is abstracted
as an update rule `upd`; that it does not increase the local action (true
of any minimiser, which competes against the current value) enters as a
hypothesis of the theorems below. -/
def coolSweep {n : ℕ} (upd : (ZMod n → ℚ) → ZMod n → ℚ) (c : ZMod n → ℚ) :
    ZMod n → ℚ :=
  (List.range n).foldl
    (fun (c : ZMod n → ℚ) (k : ℕ) =>
      Function.update c (k : ZMod n) (upd c (k : ZMod n))) c

/- ----------------------------------------------------------------- -/
/- Cooled Monte Carlo density driver                                 -/
/- (src/monte_carlo_ao_cooling_density.py)                           -/
/- ----------------------------------------------------------------- -/

/-- Number of cooling events per potential minimum: `n_cooling` is
incremented exactly at the post-equilibration sweeps `i_mc` with
`i_mc % n_sweeps_btw_cooling == 0`, `i_mc` ranging over
`range(n_mc_sweeps - n_equil)` (src/monte_carlo_ao_cooling_density.py
lines 60-73). -/
def nCoolingEvents (nPost nBtw : ℕ) : ℕ :=
  ((List.range nPost).filter (fun i => i % nBtw = 0)).length

/-- Return code of `cooled_monte_carlo_density`: `1` from the early
validation `if n_mc_sweeps < n_equil` (lines 20-22), `0` from the final
`return 0` (line 146). -/
def cooledMcReturn (nEquil nMc : ℕ) : ℕ :=
  if nMc < nEquil then 1 else 0

/-- Number of Metropolis sweeps performed by
`cooled_monte_carlo_density`: none when validation fails, otherwise
`n_equil + (n_mc_sweeps - n_equil)` per potential minimum
(lines 56-62). -/
def cooledMcSweeps (nEquil nMc nMinima : ℕ) : ℕ :=
  if nMc < nEquil then 0 else nMinima * nMc

/-- The sample counts handed to the statistical aggregator
`mc.stat_av_var` by `cooled_monte_carlo_density`: nothing when validation
fails; otherwise, for each of the `n_minima` scan points, two calls
(action statistics and instanton-count statistics) each with the value of
`n_cooling` accumulated in that scan point
(src/monte_carlo_ao_cooling_density.py lines 104-113). -/
def cooledMcAggCalls (nEquil nMc nBtw nMinima : ℕ) : List ℕ :=
  if nMc < nEquil then []
  else (List.range nMinima).foldr
    (fun _ acc =>
      nCoolingEvents (nMc - nEquil) nBtw :: nCoolingEvents (nMc - nEquil) nBtw :: acc)
    []

/- ----------------------------------------------------------------- -/
/- Statistical aggregator (spec 4.5; utility_monte_carlo.stat_av_var  -/
/- is not under src/)                                                -/
/- ----------------------------------------------------------------- -/

/-- Modelled from the spec: `utility_monte_carlo.stat_av_var` is not under
`src/`.  Spec 4.5: per bin, `mean = sum/n_samples` and
`error = sqrt(max(0, sumsq/n_samples - mean^2) / n_samples)`, with the
variance term clamped at zero; `n_samples = 0` is a programming error and
must fail loudly, modelled as returning `none`. -/
noncomputable def statAvVar (sums sqs : List ℝ) (n : ℕ) :
    Option (List ℝ × List ℝ) :=
  if n = 0 then none
  else some
    (sums.map (fun s => s / (n : ℝ)),
     (sums.zip sqs).map (fun p =>
       Real.sqrt (max 0 (p.2 / (n : ℝ) - (p.1 / (n : ℝ)) ^ 2) / (n : ℝ))))

/- ----------------------------------------------------------------- -/
/- Random / heated instanton liquid model drivers                    -/
/- (src/random_instanton_monte_carlo.py,                             -/
/-  src/random_instanton_monte_carlo_heating.py)                     -/
/- ----------------------------------------------------------------- -/

/-- Two-loop semiclassical instanton density
`8 * vmin^(5/2) * sqrt(2/pi) * exp(-s0 - 71/(72*s0))`
(src/random_instanton_monte_carlo.py lines 31-32,
src/random_instanton_monte_carlo_heating.py lines 32-34). -/
noncomputable def loopTwoDensity (vmin s0 : ℝ) : ℝ :=
  8 * vmin ^ ((5 : ℝ) / 2) * Real.sqrt (2 / Real.pi)
    * Real.exp (-s0 - 71 / (72 * s0))

/-- Instanton-centre count of the random driver,
`n_ia = int(np.rint(loop_2 * n_lattice * dtau))` with `s0 = ip.action_0`
(src/random_instanton_monte_carlo.py line 34).  `np.rint` rounds to the
nearest integer (ties to even; `round` agrees except at exact half-integer
ties, which the claims do not exercise) and `int(... )` of the
non-negative result is modelled by `Int.toNat`. -/
noncomputable def nIaRandom (vmin action0 dtau : ℝ) (nLattice : ℕ) : ℕ :=
  (round (loopTwoDensity vmin action0 * (nLattice : ℝ) * dtau)).toNat

/-- Instanton-centre count of the heated driver: identical formula with
the locally computed `s0 = 4/3 * vmin^3`
(src/random_instanton_monte_carlo_heating.py lines 32-35). -/
noncomputable def nIaHeated (vmin dtau : ℝ) (nLattice : ℕ) : ℕ :=
  (round (loopTwoDensity vmin (4 / 3 * vmin ^ 3) * (nLattice : ℝ) * dtau)).toNat

/-- Modelled from the spec: `utility_rilm.rilm_monte_carlo_step` is not
under `src/`.  Spec 4.6: the sampling step draws exactly the requested
number of instanton centres (randomness abstracted by the draw stream),
builds the ansatz configuration from them, accumulates correlators, and
returns the realized centre list. -/
def rilmMonteCarloStep (draw : ℕ → ℚ) (nIa : ℕ) : List ℚ :=
  (List.range nIa).map draw

/-- Modelled from the spec: `utility_rilm.rilm_heated_monte_carlo_step` is
not under `src/`.  Spec 4.6: as the random step, followed by `n_heating`
Metropolis sweeps around the ansatz; the heating sweeps do not change the
centre list used to build the ansatz. -/
def rilmHeatedMonteCarloStep (draw : ℕ → ℚ) (nIa nHeating : ℕ) : List ℚ :=
  (List.range nIa).map draw

/-- Per-sweep centre lists of `random_instanton_liquid_model`
(src/random_instanton_monte_carlo.py lines 31-47): `n_ia` is computed once
before the sweep loop and every sweep calls the sampling step with it. -/
noncomputable def randomILMCenters (draw : ℕ → ℕ → ℚ) (vmin action0 dtau : ℝ)
    (nLattice nMcSweeps : ℕ) : List (List ℚ) :=
  let nIa := nIaRandom vmin action0 dtau nLattice
  (List.range nMcSweeps).map (fun iMc => rilmMonteCarloStep (draw iMc) nIa)

/-- Per-sweep centre lists of `random_instanton_liquid_model_heating`
(src/random_instanton_monte_carlo_heating.py lines 31-46). -/
noncomputable def heatedILMCenters (draw : ℕ → ℕ → ℚ) (vmin dtau : ℝ)
    (nLattice nMcSweeps nHeating : ℕ) : List (List ℚ) :=
  let nIa := nIaHeated vmin dtau nLattice
  (List.range nMcSweeps).map (fun iMc =>
    rilmHeatedMonteCarloStep (draw iMc) nIa nHeating)

/-- Indices of `tau_centers_ia` read by the nearest-neighbour-separation
histogram loop of src/random_instanton_monte_carlo.py lines 49-58, for a
centre array of size `m`: for each `i in range(0, m, 2)` the loop reads
`tau[i]`, `tau[i+1]`, and `tau[-1]` (Python index `m - 1`) when `i == 0`
or `tau[i-1]` otherwise. -/
def histReads (m : ℕ) : List ℕ :=
  ((List.range m).filter (fun i => i % 2 = 0)).foldr
    (fun i acc => i :: (i + 1) :: (if i = 0 then m - 1 else i - 1) :: acc) []

/- ----------------------------------------------------------------- -/
/- Eigenvalue-removal loop (src/anh_osc_diag.py lines 332-340)       -/
/- ----------------------------------------------------------------- -/

/-- Fuel-indexed model of the `while i_removal < n_hamiltonian` loop of
`anharmonic_oscillator_diag` (src/anh_osc_diag.py lines 332-340).  The
state is `i_removal`; a negative eigenvalue advances it, an eigenvalue
above `1e-5` breaks, and any eigenvalue in `[0, 1e-5]` leaves the state
unchanged, re-entering the loop.  `none` means the fuel ran out with the
loop still running; `some i` means the loop exited with `i_removal = i`. -/
def removalLoop (ev : List ℚ) (nHam : ℕ) : ℕ → ℕ → Option ℕ
  | 0, _ => none
  | fuel + 1, i =>
    if i < nHam then
      if ev.getD i 0 < 0 then removalLoop ev nHam fuel (i + 1)
      else if ev.getD i 0 > 1 / 100000 then some i
      else removalLoop ev nHam fuel i
    else some i

/- ----------------------------------------------------------------- -/
/- Cooling events inside the Monte Carlo trajectory                  -/
/- (src/monte_carlo_ao_cooling_density.py lines 73-101)              -/
/- ----------------------------------------------------------------- -/

/-- One cooling event of `cooled_monte_carlo_density`
(src/monte_carlo_ao_cooling_density.py lines 73-101): the event takes a
copy `x_cold_config = np.copy(x_config)` of the chain configuration,
applies `n_cooling_sweeps` successive cooling sweeps to the copy, and
measures the copy after each sweep.  `cool` abstracts
`mc.configuration_cooling` (not under `src/`); the result is the chain
configuration handed back to the Metropolis chain together with the list
of measured cooled configurations. -/
def coolingEvent (cool : List ℚ → List ℚ) (nCoolingSweeps : ℕ)
    (x : List ℚ) : List ℚ × List (List ℚ) :=
  let measured := (List.range nCoolingSweeps).map (fun k => cool^[k + 1] x)
  (x, measured)

/-- Post-equilibration Monte Carlo loop of `cooled_monte_carlo_density`
(src/monte_carlo_ao_cooling_density.py lines 60-101): each sweep applies
`mc.metropolis_question` (abstracted as `metro`, indexed by the sweep for
its random stream) to the chain configuration and, every
`n_sweeps_btw_cooling` sweeps, runs a cooling event.  The state carries
the chain configuration, the `n_cooling` counter, and the accumulated
cooling measurements. -/
def mcLoop (metro : ℕ → List ℚ → List ℚ) (cool : List ℚ → List ℚ)
    (nBtw nCoolingSweeps nPost : ℕ) (x0 : List ℚ) :
    List ℚ × ℕ × List (List ℚ) :=
  (List.range nPost).foldl (fun st iMc =>
    let x := metro iMc st.1
    if iMc % nBtw = 0 then
      let ev := coolingEvent cool nCoolingSweeps x
      (ev.1, st.2.1 + 1, st.2.2 ++ ev.2)
    else (x, st.2.1, st.2.2)) (x0, 0, [])

/- ----------------------------------------------------------------- -/
/- List access helper lemmas                                          -/
/- ----------------------------------------------------------------- -/

theorem getD_set_ne {α : Type} [Inhabited α] (l : List α) (i j : ℕ) (v d : α)
    (h : i ≠ j) : (l.set i v).getD j d = l.getD j d := by
  simp [List.getD_eq_getElem?_getD, List.getElem?_set_ne h]

theorem getD_set_self {α : Type} [Inhabited α] (l : List α) (i : ℕ) (v d : α)
    (h : i < l.length) : (l.set i v).getD i d = v := by
  simp [List.getD_eq_getElem?_getD, List.getElem?_set_self, h]

theorem getD_range_map {α : Type} [Inhabited α] (f : ℕ → α) (n k : ℕ) (d : α)
    (h : k < n) : ((List.range n).map f).getD k d = f k := by
  simp [List.getD_eq_getElem?_getD, List.getElem?_map, List.getElem?_range h]

theorem getD_append_left {α : Type} [Inhabited α] (l l' : List α) (i : ℕ) (d : α)
    (h : i < l.length) : (l ++ l').getD i d = l.getD i d := by
  simp [List.getD_eq_getElem?_getD, List.getElem?_append_left h]

theorem getD_append_right {α : Type} [Inhabited α] (l l' : List α) (i : ℕ) (d : α)
    (h : l.length ≤ i) : (l ++ l').getD i d = l'.getD (i - l.length) d := by
  simp [List.getD_eq_getElem?_getD, List.getElem?_append_right h]

/- ----------------------------------------------------------------- -/
/- Claim C1                                                           -/
/- ----------------------------------------------------------------- -/

/-- Claim C1: for every `n_lattice_half >= 1`, the streamline solver's
initial configuration (the two-instanton ansatz, of the modelled length)
is padded to `2*n_lattice_half + 4` entries with two ghost points on each
boundary whose values equal the nearest interior point, the interior
entries are the ansatz values, and every array access of the per-step
gradient loop (`x_config[i_pos - 2]` through `x_config[i_pos + 2]` for
`i_pos` in `[2, 2*n_lattice_half + 1]`) lies within the bounds of the
padded configuration. -/
theorem streamline_padding_in_bounds (H : ℕ) (xs : List ℚ)
    (hH : 1 ≤ H) (hlen : xs.length = ansatzConfLength (2 * H)) :
    (padConfig xs).length = 2 * H + 4
    ∧ (padConfig xs).getD 0 0 = (padConfig xs).getD 2 0
    ∧ (padConfig xs).getD 1 0 = (padConfig xs).getD 2 0
    ∧ (padConfig xs).getD (2 * H + 2) 0 = (padConfig xs).getD (2 * H + 1) 0
    ∧ (padConfig xs).getD (2 * H + 3) 0 = (padConfig xs).getD (2 * H + 1) 0
    ∧ (∀ k, k < 2 * H → (padConfig xs).getD (2 + k) 0 = xs.getD k 0)
    ∧ (∀ iPos, 2 ≤ iPos → iPos ≤ 2 * H + 1 →
        iPos - 2 < (padConfig xs).length ∧ iPos - 1 < (padConfig xs).length
        ∧ iPos < (padConfig xs).length ∧ iPos + 1 < (padConfig xs).length
        ∧ iPos + 2 < (padConfig xs).length) := by
  have hx : xs.length = 2 * H + 1 := by simpa [ansatzConfLength] using hlen
  have hzlen : (xs.getD 0 0 :: xs.getD 0 0 :: xs).length = 2 * H + 3 := by
    simp [hx]
  have hpad : padConfig xs =
      ((xs.getD 0 0 :: xs.getD 0 0 :: xs).set (2 * H + 2)
        ((xs.getD 0 0 :: xs.getD 0 0 :: xs).getD (2 * H + 1) 0))
      ++ [((xs.getD 0 0 :: xs.getD 0 0 :: xs).set (2 * H + 2)
        ((xs.getD 0 0 :: xs.getD 0 0 :: xs).getD (2 * H + 1) 0)).getD (2 * H + 2) 0] := by
    simp only [padConfig, List.getD_cons_zero, List.length_cons, List.length_set, hx]
    rw [show 2 * H + 1 + 1 + 1 - 1 = 2 * H + 2 from by omega,
      show 2 * H + 1 + 1 + 1 - 2 = 2 * H + 1 from by omega]
  have hwlen : (((xs.getD 0 0 :: xs.getD 0 0 :: xs).set (2 * H + 2)
      ((xs.getD 0 0 :: xs.getD 0 0 :: xs).getD (2 * H + 1) 0))).length = 2 * H + 3 := by
    simp [hx]
  -- values of the set stage
  have hzget : ∀ k, (xs.getD 0 0 :: xs.getD 0 0 :: xs).getD (2 + k) 0 = xs.getD k 0 := by
    intro k
    rw [show 2 + k = k + 1 + 1 from by omega, List.getD_cons_succ, List.getD_cons_succ]
  have hwget_ne : ∀ j, j ≠ 2 * H + 2 →
      (((xs.getD 0 0 :: xs.getD 0 0 :: xs).set (2 * H + 2)
        ((xs.getD 0 0 :: xs.getD 0 0 :: xs).getD (2 * H + 1) 0))).getD j 0
      = (xs.getD 0 0 :: xs.getD 0 0 :: xs).getD j 0 := by
    intro j hj
    exact getD_set_ne _ _ _ _ _ (fun h => hj h.symm)
  have hwget_eq :
      (((xs.getD 0 0 :: xs.getD 0 0 :: xs).set (2 * H + 2)
        ((xs.getD 0 0 :: xs.getD 0 0 :: xs).getD (2 * H + 1) 0))).getD (2 * H + 2) 0
      = xs.getD (2 * H - 1) 0 := by
    rw [getD_set_self _ _ _ _ (by rw [hzlen]; omega)]
    have h21 : 2 * H + 1 = 2 + (2 * H - 1) := by omega
    rw [h21, hzget]
  have hlen4 : (padConfig xs).length = 2 * H + 4 := by
    rw [hpad]; simp [hx]
  have hpget : ∀ j, j < 2 * H + 3 → (padConfig xs).getD j 0 =
      (((xs.getD 0 0 :: xs.getD 0 0 :: xs).set (2 * H + 2)
        ((xs.getD 0 0 :: xs.getD 0 0 :: xs).getD (2 * H + 1) 0))).getD j 0 := by
    intro j hj
    rw [hpad]
    exact getD_append_left _ _ _ _ (by rw [hwlen]; exact hj)
  have hplast : (padConfig xs).getD (2 * H + 3) 0 = xs.getD (2 * H - 1) 0 := by
    rw [hpad, getD_append_right _ _ _ _ (by rw [hwlen])]
    rw [hwlen]
    simpa using hwget_eq
  have hp2 : (padConfig xs).getD 2 0 = xs.getD 0 0 := by
    rw [hpget 2 (by omega), hwget_ne 2 (by omega)]
    exact hzget 0
  have hinterior : ∀ k, k < 2 * H → (padConfig xs).getD (2 + k) 0 = xs.getD k 0 := by
    intro k hk
    rw [hpget (2 + k) (by omega), hwget_ne (2 + k) (by omega)]
    exact hzget k
  have hp2H1 : (padConfig xs).getD (2 * H + 1) 0 = xs.getD (2 * H - 1) 0 := by
    have h21 : 2 * H + 1 = 2 + (2 * H - 1) := by omega
    rw [h21]
    exact hinterior (2 * H - 1) (by omega)
  refine ⟨hlen4, ?_, ?_, ?_, ?_, hinterior, ?_⟩
  · rw [hpget 0 (by omega), hwget_ne 0 (by omega), hp2]; rfl
  · rw [hpget 1 (by omega), hwget_ne 1 (by omega), hp2]; rfl
  · rw [hpget (2 * H + 2) (by omega), hwget_eq, hp2H1]
  · rw [hplast, hp2H1]
  · intro iPos h2 hle
    refine ⟨?_, ?_, ?_, ?_, ?_⟩ <;> omega

/-- Witness for C1 at `n_lattice_half = 1` and the concrete ansatz
configuration `[1, 2, 3]`. -/
theorem streamline_padding_in_bounds_witness :
    (1 ≤ 1 ∧ ([ (1 : ℚ), 2, 3 ]).length = ansatzConfLength (2 * 1))
    ∧ (padConfig [(1 : ℚ), 2, 3]).length = 2 * 1 + 4 := by
  refine ⟨⟨le_refl 1, by decide⟩, ?_⟩
  exact (streamline_padding_in_bounds 1 [1, 2, 3] (le_refl 1) (by decide)).1

/- ----------------------------------------------------------------- -/
/- Claim C5                                                           -/
/- ----------------------------------------------------------------- -/

theorem updateInterior_getD (H : ℕ) (stepSize : ℚ) (x lam : List ℚ) :
    (updateInterior H stepSize x lam).length = x.length
    ∧ ∀ i, i < x.length → (updateInterior H stepSize x lam).getD i 0 =
        if 2 ≤ i ∧ i < 2 * H + 2 then
          x.getD i 0 + -(lam.getD (i - 2) 0) * stepSize
        else x.getD i 0 := by
  constructor
  · simp [updateInterior]
  · intro i hi
    unfold updateInterior
    rw [getD_range_map _ _ _ _ hi]

theorem clampGhosts_getD (u : List ℚ) (H : ℕ) (hH : 1 ≤ H)
    (hlen : u.length = 2 * H + 4) :
    (clampGhosts u).length = 2 * H + 4
    ∧ (∀ i, 2 ≤ i → i ≤ 2 * H + 1 → (clampGhosts u).getD i 0 = u.getD i 0)
    ∧ (clampGhosts u).getD 0 0 = u.getD 2 0
    ∧ (clampGhosts u).getD 1 0 = u.getD 2 0
    ∧ (clampGhosts u).getD (2 * H + 2) 0 = u.getD (2 * H + 1) 0
    ∧ (clampGhosts u).getD (2 * H + 3) 0 = u.getD (2 * H + 1) 0 := by
  set a := u.set 0 (u.getD 2 0) with haDef
  set b := a.set 1 (a.getD 2 0) with hbDef
  have hal : a.length = 2 * H + 4 := by rw [haDef]; simp [hlen]
  have hbl : b.length = 2 * H + 4 := by rw [hbDef]; simp [hal]
  set cc := b.set (2 * H + 3) (b.getD (2 * H + 1) 0) with hccDef
  have hcl : cc.length = 2 * H + 4 := by rw [hccDef]; simp [hbl]
  have hcg : clampGhosts u = cc.set (2 * H + 2) (cc.getD (2 * H + 1) 0) := by
    simp only [clampGhosts, haDef, hbDef, hccDef, List.length_set, hlen]
    rw [show 2 * H + 4 - 1 = 2 * H + 3 from by omega,
      show 2 * H + 4 - 2 = 2 * H + 2 from by omega,
      show 2 * H + 4 - 3 = 2 * H + 1 from by omega]
  have hau : ∀ j, j ≠ 0 → a.getD j 0 = u.getD j 0 := by
    intro j hj
    rw [haDef]
    exact getD_set_ne u 0 j (u.getD 2 0) 0 (fun h => hj h.symm)
  have ha0 : a.getD 0 0 = u.getD 2 0 := by
    rw [haDef]
    exact getD_set_self u 0 (u.getD 2 0) 0 (by omega)
  have hbu : ∀ j, j ≠ 0 → j ≠ 1 → b.getD j 0 = u.getD j 0 := by
    intro j hj0 hj1
    rw [hbDef, getD_set_ne a 1 j (a.getD 2 0) 0 (fun h => hj1 h.symm)]
    exact hau j hj0
  have hb1 : b.getD 1 0 = u.getD 2 0 := by
    rw [hbDef, getD_set_self a 1 (a.getD 2 0) 0 (by rw [hal]; omega)]
    exact hau 2 (by omega)
  have hb0 : b.getD 0 0 = u.getD 2 0 := by
    rw [hbDef, getD_set_ne a 1 0 (a.getD 2 0) 0 (by omega)]
    exact ha0
  have hcu : ∀ j, j ≠ 0 → j ≠ 1 → j ≠ 2 * H + 3 → cc.getD j 0 = u.getD j 0 := by
    intro j hj0 hj1 hj3
    rw [hccDef, getD_set_ne b (2 * H + 3) j (b.getD (2 * H + 1) 0) 0 (fun h => hj3 h.symm)]
    exact hbu j hj0 hj1
  have hc3 : cc.getD (2 * H + 3) 0 = u.getD (2 * H + 1) 0 := by
    rw [hccDef, getD_set_self b (2 * H + 3) (b.getD (2 * H + 1) 0) 0 (by rw [hbl]; omega)]
    exact hbu (2 * H + 1) (by omega) (by omega)
  have hc0 : cc.getD 0 0 = u.getD 2 0 := by
    rw [hccDef, getD_set_ne b (2 * H + 3) 0 (b.getD (2 * H + 1) 0) 0 (by omega)]
    exact hb0
  have hc1 : cc.getD 1 0 = u.getD 2 0 := by
    rw [hccDef, getD_set_ne b (2 * H + 3) 1 (b.getD (2 * H + 1) 0) 0 (by omega)]
    exact hb1
  rw [hcg]
  refine ⟨by simp [hcl], ?_, ?_, ?_, ?_, ?_⟩
  · intro i h2 hle
    rw [getD_set_ne cc (2 * H + 2) i (cc.getD (2 * H + 1) 0) 0 (by omega)]
    exact hcu i (by omega) (by omega) (by omega)
  · rw [getD_set_ne cc (2 * H + 2) 0 (cc.getD (2 * H + 1) 0) 0 (by omega)]
    exact hc0
  · rw [getD_set_ne cc (2 * H + 2) 1 (cc.getD (2 * H + 1) 0) 0 (by omega)]
    exact hc1
  · rw [getD_set_self cc (2 * H + 2) (cc.getD (2 * H + 1) 0) 0 (by rw [hcl]; omega)]
    exact hcu (2 * H + 1) (by omega) (by omega) (by omega)
  · rw [getD_set_ne cc (2 * H + 2) (2 * H + 3) (cc.getD (2 * H + 1) 0) 0 (by omega)]
    exact hc3

/-- Claim C5: at every fictitious-time step of `streamline_method_iilm`
(one application of `streamStep` to the current padded configuration) and
at every interior site `i` in `[2, 2*n_lattice_half + 1]`, the local
functional gradient equals
`-1/2*((-x[i+2] + 16x[i+1] - 30x[i] + 16x[i-1] - x[i-2])/(12*dtau^2))
 + 4*x[i]*(x[i]^2 - vmin^2)` evaluated on the pre-update configuration,
the site is updated by `x[i] -= gradient*stream_time_step`, and afterwards
the two ghost points on each boundary are re-clamped to the nearest
interior value of the updated configuration. -/
theorem streamline_gradient_step (vmin dtau stepSize : ℚ) (H : ℕ) (x : List ℚ)
    (hH : 1 ≤ H) (hlen : x.length = 2 * H + 4) :
    (streamStep vmin dtau stepSize H x).length = 2 * H + 4
    ∧ (∀ i, 2 ≤ i → i ≤ 2 * H + 1 →
        (streamStep vmin dtau stepSize H x).getD i 0 =
          x.getD i 0 -
            (-(1 : ℚ) / 2 *
                ((-x.getD (i + 2) 0 + 16 * x.getD (i + 1) 0 - 30 * x.getD i 0
                    + 16 * x.getD (i - 1) 0 - x.getD (i - 2) 0) / (12 * dtau ^ 2))
              + 4 * x.getD i 0 * ((x.getD i 0) ^ 2 - vmin ^ 2)) * stepSize)
    ∧ (streamStep vmin dtau stepSize H x).getD 0 0
        = (streamStep vmin dtau stepSize H x).getD 2 0
    ∧ (streamStep vmin dtau stepSize H x).getD 1 0
        = (streamStep vmin dtau stepSize H x).getD 2 0
    ∧ (streamStep vmin dtau stepSize H x).getD (2 * H + 2) 0
        = (streamStep vmin dtau stepSize H x).getD (2 * H + 1) 0
    ∧ (streamStep vmin dtau stepSize H x).getD (2 * H + 3) 0
        = (streamStep vmin dtau stepSize H x).getD (2 * H + 1) 0 := by
  have hu := updateInterior_getD H stepSize x (lambdaDerivative vmin dtau x H)
  have hul : (updateInterior H stepSize x (lambdaDerivative vmin dtau x H)).length
      = 2 * H + 4 := by rw [hu.1, hlen]
  have hc := clampGhosts_getD
    (updateInterior H stepSize x (lambdaDerivative vmin dtau x H)) H hH hul
  have hss : streamStep vmin dtau stepSize H x =
      clampGhosts (updateInterior H stepSize x (lambdaDerivative vmin dtau x H)) := rfl
  have hint : ∀ i, 2 ≤ i → i ≤ 2 * H + 1 →
      (streamStep vmin dtau stepSize H x).getD i 0 =
        x.getD i 0 -
          (-(1 : ℚ) / 2 *
              ((-x.getD (i + 2) 0 + 16 * x.getD (i + 1) 0 - 30 * x.getD i 0
                  + 16 * x.getD (i - 1) 0 - x.getD (i - 2) 0) / (12 * dtau ^ 2))
            + 4 * x.getD i 0 * ((x.getD i 0) ^ 2 - vmin ^ 2)) * stepSize := by
    intro i h2 hle
    rw [hss, hc.2.1 i h2 hle, hu.2 i (by omega)]
    rw [if_pos ⟨h2, by omega⟩]
    have hlam : (lambdaDerivative vmin dtau x H).getD (i - 2) 0 =
        -der2 dtau x (i - 2 + 2) / 2
          + 4 * x.getD (i - 2 + 2) 0
            * (x.getD (i - 2 + 2) 0 * x.getD (i - 2 + 2) 0 - vmin * vmin) := by
      unfold lambdaDerivative
      exact getD_range_map _ _ _ _ (by omega)
    rw [hlam, show i - 2 + 2 = i from by omega]
    unfold der2
    ring
  refine ⟨by rw [hss, hc.1], hint, ?_, ?_, ?_, ?_⟩
  · rw [hss, hc.2.2.1]
    rw [← hc.2.1 2 (by omega) (by omega), ← hss]
  · rw [hss, hc.2.2.2.1]
    rw [← hc.2.1 2 (by omega) (by omega), ← hss]
  · rw [hss, hc.2.2.2.2.1]
    rw [← hc.2.1 (2 * H + 1) (by omega) (by omega), ← hss]
  · rw [hss, hc.2.2.2.2.2]
    rw [← hc.2.1 (2 * H + 1) (by omega) (by omega), ← hss]

/-- Witness for C5 at `n_lattice_half = 1`, unit parameters, and the
concrete padded configuration `[1, 1, 1, 2, 2, 2]`. -/
theorem streamline_gradient_step_witness :
    ((1 : ℕ) ≤ 1 ∧ ([(1 : ℚ), 1, 1, 2, 2, 2]).length = 2 * 1 + 4)
    ∧ (streamStep 1 1 1 1 [(1 : ℚ), 1, 1, 2, 2, 2]).length = 2 * 1 + 4 := by
  refine ⟨⟨le_refl 1, by decide⟩, ?_⟩
  exact (streamline_gradient_step 1 1 1 1 [(1 : ℚ), 1, 1, 2, 2, 2]
    (le_refl 1) (by decide)).1

/- ----------------------------------------------------------------- -/
/- Claim C3                                                           -/
/- ----------------------------------------------------------------- -/

/-- Claim C3: at each recording step of the streamline evolution
(`i_s > 60000` and `i_s % 20 == 0`), if the zero-crossing detector found
exactly one positive and one negative root the solver appends the pair
separation `|t_plus - t_minus|` and the interaction action
`(current_action - 2*S0)/S0` with `S0 = ansatz_action = 4/3*vmin^3` to
the two logs; otherwise nothing is recorded for that step.  In either
case the evolution loop executes all `n_streamline` iterations without
aborting. -/
theorem streamline_recording_policy (vmin dtau stepSize : ℚ) (H : ℕ)
    (actionOf : List ℚ → ℚ) (findRoots : List ℚ → List ℚ × List ℚ)
    (nStreamline : ℕ) (x0 : List ℚ) :
    (streamlineRun vmin dtau stepSize H actionOf findRoots nStreamline x0).2.1
      = nStreamline
    ∧ (∀ iS posRoot negRoot A tauLog actLog, 60000 < iS → iS % 20 = 0 →
        ((posRoot.length = 1 ∧ negRoot.length = 1) →
          recordStep vmin iS posRoot negRoot A tauLog actLog =
            (tauLog ++ [|posRoot.getD 0 0 - negRoot.getD 0 0|],
             actLog ++ [(A - 2 * ansatzAction vmin) / ansatzAction vmin]))
        ∧ (¬(posRoot.length = 1 ∧ negRoot.length = 1) →
          recordStep vmin iS posRoot negRoot A tauLog actLog = (tauLog, actLog)))
    ∧ ansatzAction vmin = 4 / 3 * vmin ^ 3 := by
  refine ⟨?_, ?_, rfl⟩
  · have key : ∀ (l : List ℕ) (st : List ℚ × ℕ × List ℚ × List ℚ),
        (l.foldl (fun st iS =>
          let x := streamStep vmin dtau stepSize H st.1
          let roots := findRoots x
          let logs := recordStep vmin iS roots.1 roots.2 (actionOf x) st.2.2.1 st.2.2.2
          (x, st.2.1 + 1, logs.1, logs.2)) st).2.1 = st.2.1 + l.length := by
      intro l
      induction l with
      | nil => intro st; rfl
      | cons a t ih =>
        intro st
        rw [List.foldl_cons, ih]
        show st.2.1 + 1 + t.length = st.2.1 + (t.length + 1)
        omega
    unfold streamlineRun
    rw [key]
    simp
  · intro iS posRoot negRoot A tauLog actLog h6 h20
    constructor
    · intro hroots
      unfold recordStep
      rw [if_pos ⟨h6, h20⟩, if_pos hroots]
    · intro hroots
      unfold recordStep
      rw [if_pos ⟨h6, h20⟩, if_neg hroots]

/-- Witness for C3 at recording step 60020 with detector output one
positive root `[1]` and one negative root `[0]`. -/
theorem streamline_recording_policy_witness :
    (60000 < 60020 ∧ 60020 % 20 = 0
      ∧ ([(1 : ℚ)].length = 1 ∧ [(0 : ℚ)].length = 1))
    ∧ recordStep 1 60020 [(1 : ℚ)] [(0 : ℚ)] 5 [] [] =
        ([] ++ [|(1 : ℚ) - (0 : ℚ)|],
         [] ++ [((5 : ℚ) - 2 * ansatzAction 1) / ansatzAction 1]) := by
  refine ⟨⟨by decide, by decide, by decide, by decide⟩, ?_⟩
  have h := (streamline_recording_policy 1 1 1 1 (fun _ => 0)
    (fun _ => ([], [])) 0 []).2.1 60020 [(1 : ℚ)] [(0 : ℚ)] 5 [] []
    (by decide) (by decide)
  exact h.1 ⟨by decide, by decide⟩

/- ----------------------------------------------------------------- -/
/- Claim C8                                                           -/
/- ----------------------------------------------------------------- -/

/-- Claim C8: the while-loop of `anharmonic_oscillator_diag` that
identifies the removed (non-positive) eigenvalue indices can run
unbounded: there is an eigenvalue array (e.g. a leading eigenvalue equal
to `0`, which is neither `< 0` nor `> 1e-5`) for which the loop never
terminates, whatever fuel it is given. -/
theorem removal_loop_can_run_unbounded :
    ∃ (ev : List ℚ) (nHam : ℕ),
      ∀ fuel, removalLoop ev nHam fuel 0 = none := by
  refine ⟨[0], 1, ?_⟩
  have key : ∀ fuel, removalLoop [0] 1 fuel 0 = none := by
    intro fuel
    induction fuel with
    | zero => rfl
    | succ f ih =>
      show removalLoop [0] 1 (f + 1) 0 = none
      unfold removalLoop
      rw [if_pos (by omega : 0 < 1)]
      rw [if_neg (by norm_num : ¬ ([ (0 : ℚ) ].getD 0 0 < 0))]
      rw [if_neg (by norm_num : ¬ ([ (0 : ℚ) ].getD 0 0 > 1 / 100000))]
      exact ih
  exact key

/- ----------------------------------------------------------------- -/
/- Claim C9                                                           -/
/- ----------------------------------------------------------------- -/

/-- Claim C9: the nearest-neighbour-separation histogram loop of
`random_instanton_liquid_model` performs only in-bounds accesses on the
centre array if and only if the number of returned centres is even; for
an odd centre count it reads index `m` of an array of size `m`, one
element past the end.  Via the (spec-modelled) sampling step, the centre
count of every sweep is the requested `n_ia`, so an odd `n_ia` makes the
loop read out of bounds. -/
theorem hist_loop_bounds_iff_even (m : ℕ) :
    ((∀ j ∈ histReads m, j < m) ↔ m % 2 = 0)
    ∧ (m % 2 = 1 → m ∈ histReads m)
    ∧ (∀ draw : ℕ → ℚ, ∀ nIa : ℕ,
        ((∀ j ∈ histReads (rilmMonteCarloStep draw nIa).length, j
            < (rilmMonteCarloStep draw nIa).length) ↔ nIa % 2 = 0)) := by
  have hmem : ∀ i j : ℕ, j ∈ histReads i ↔
      ∃ k, k ∈ (List.range i).filter (fun x => x % 2 = 0)
        ∧ (j = k ∨ j = k + 1 ∨ j = if k = 0 then i - 1 else k - 1) := by
    intro i j
    unfold histReads
    induction (List.range i).filter (fun x => x % 2 = 0) with
    | nil => simp
    | cons a t ih =>
      simp only [List.foldr_cons, List.mem_cons, ih]
      constructor
      · rintro (h | h | h | ⟨k, hk, hj⟩)
        · exact ⟨a, Or.inl rfl, Or.inl h⟩
        · exact ⟨a, Or.inl rfl, Or.inr (Or.inl h)⟩
        · exact ⟨a, Or.inl rfl, Or.inr (Or.inr h)⟩
        · exact ⟨k, Or.inr hk, hj⟩
      · rintro ⟨k, hk, hj⟩
        rcases hk with hk | hk
        · subst hk
          rcases hj with h | h | h
          · exact Or.inl h
          · exact Or.inr (Or.inl h)
          · exact Or.inr (Or.inr (Or.inl h))
        · exact Or.inr (Or.inr (Or.inr ⟨k, hk, hj⟩))
  have hoddAll : ∀ i : ℕ, i % 2 = 1 → i ∈ histReads i := by
    intro i hi
    rw [hmem]
    refine ⟨i - 1, ?_, Or.inr (Or.inl (by omega))⟩
    rw [List.mem_filter, List.mem_range]
    refine ⟨by omega, ?_⟩
    simp only [decide_eq_true_eq]
    omega
  have hiffAll : ∀ i : ℕ, (∀ j ∈ histReads i, j < i) ↔ i % 2 = 0 := by
    intro i
    constructor
    · intro hbound
      by_contra hodd2
      have h1 : i % 2 = 1 := by omega
      have := hbound i (hoddAll i h1)
      omega
    · intro heven j hj
      rw [hmem] at hj
      obtain ⟨k, hk, hjk⟩ := hj
      rw [List.mem_filter, List.mem_range] at hk
      have hk2 : k % 2 = 0 := by
        have := hk.2
        simpa using this
      have hki : k < i := hk.1
      rcases hjk with h | h | h
      · omega
      · omega
      · by_cases h0 : k = 0
        · rw [h0] at h
          simp at h
          omega
        · rw [if_neg h0] at h
          omega
  have hl : ∀ (draw : ℕ → ℚ) (nIa : ℕ), (rilmMonteCarloStep draw nIa).length = nIa := by
    intro draw nIa
    simp [rilmMonteCarloStep]
  refine ⟨hiffAll m, hoddAll m, ?_⟩
  intro draw nIa
  rw [hl draw nIa]
  exact hiffAll nIa

/- ----------------------------------------------------------------- -/
/- Claim C4                                                           -/
/- ----------------------------------------------------------------- -/

/-- Claim C4, evaluated at the failing input: with
`n_equil = n_mc_sweeps = 5`, `n_sweeps_btw_cooling = 20` and
`n_minima = 1`, `cooled_monte_carlo_density` passes its validation
(`n_mc_sweeps < n_equil` is false, so the run returns `0`), yet the
post-equilibration loop runs zero times, `n_cooling` stays `0`, and the
statistical aggregator is invoked with a zero sample count — contradicting
the claim that no path passing validation supplies `n_samples = 0`.  The
(spec-modelled) aggregator itself rejects `n_samples = 0`. -/
theorem cooled_mc_zero_samples_at_boundary :
    cooledMcReturn 5 5 = 0
    ∧ (0 : ℕ) ∈ cooledMcAggCalls 5 5 20 1
    ∧ (∀ sums sqs : List ℝ, statAvVar sums sqs 0 = none) := by
  refine ⟨rfl, by decide, fun sums sqs => rfl⟩

/- ----------------------------------------------------------------- -/
/- Claim C2                                                           -/
/- ----------------------------------------------------------------- -/

theorem latAction_update {n : ℕ} [NeZero n] (dtau vmin : ℚ) (hn : 3 ≤ n)
    (c : ZMod n → ℚ) (i : ZMod n) (v : ℚ) :
    latAction dtau vmin (Function.update c i v) + localAction dtau vmin c i (c i)
      = latAction dtau vmin c + localAction dtau vmin c i v := by
  have h1ne : (1 : ZMod n) ≠ 0 := by
    intro h
    have hd : n ∣ 1 := (ZMod.natCast_zmod_eq_zero_iff_dvd 1 n).1 (by exact_mod_cast h)
    have := Nat.le_of_dvd (by norm_num) hd
    omega
  have h2ne : (2 : ZMod n) ≠ 0 := by
    intro h
    have hd : n ∣ 2 := (ZMod.natCast_zmod_eq_zero_iff_dvd 2 n).1 (by exact_mod_cast h)
    have := Nat.le_of_dvd (by norm_num) hd
    omega
  have hi1 : i - 1 ≠ i := fun h => h1ne (sub_eq_self.mp h)
  have hi2 : i + 1 ≠ i := fun h => h1ne (add_right_eq_self.mp h)
  have hi13 : i - 1 ≠ i + 1 := fun h => h2ne (by linear_combination -h)
  have him2 : i - 2 ≠ i := fun h => h2ne (sub_eq_self.mp h)
  have hip2 : i + 2 ≠ i := fun h => h2ne (add_right_eq_self.mp h)
  set c' := Function.update c i v with hc'
  have u_i : c' i = v := Function.update_same i v c
  have u_im2 : c' (i - 2) = c (i - 2) := Function.update_noteq him2 v c
  have u_im1 : c' (i - 1) = c (i - 1) := Function.update_noteq hi1 v c
  have u_ip1 : c' (i + 1) = c (i + 1) := Function.update_noteq hi2 v c
  have u_ip2 : c' (i + 2) = c (i + 2) := Function.update_noteq hip2 v c
  have e1 : i - 1 + 1 = i := by ring
  have e2 : i - 1 - 1 = i - 2 := by ring
  have e3 : i + 1 - 1 = i := by ring
  have e4 : i + 1 + 1 = i + 2 := by ring
  have hm1 : (i - 1) ∉ insert i ({i + 1} : Finset (ZMod n)) := by
    simp only [Finset.mem_insert, Finset.mem_singleton]
    push_neg
    exact ⟨hi1, hi13⟩
  have hm2 : i ∉ ({i + 1} : Finset (ZMod n)) := by
    simp only [Finset.mem_singleton]
    exact fun h => hi2 h.symm
  have hcompl : ∑ j in (insert (i - 1) (insert i ({i + 1} : Finset (ZMod n))))ᶜ,
        (latKin dtau c' j + latPot vmin c' j)
      = ∑ j in (insert (i - 1) (insert i ({i + 1} : Finset (ZMod n))))ᶜ,
        (latKin dtau c j + latPot vmin c j) := by
    refine Finset.sum_congr rfl (fun j hj => ?_)
    rw [Finset.mem_compl, Finset.mem_insert, Finset.mem_insert, Finset.mem_singleton] at hj
    push_neg at hj
    obtain ⟨hj1, hj2, hj3⟩ := hj
    have w1 : c' (j + 1) = c (j + 1) :=
      Function.update_noteq (fun h => hj1 (by linear_combination h)) v c
    have w2 : c' (j - 1) = c (j - 1) :=
      Function.update_noteq (fun h => hj3 (by linear_combination h)) v c
    have w3 : c' j = c j := Function.update_noteq hj2 v c
    unfold latKin latPot
    rw [w1, w2, w3]
  have hsplit : ∀ d : ZMod n → ℚ,
      latAction dtau vmin d
        = (∑ j in insert (i - 1) (insert i ({i + 1} : Finset (ZMod n))),
            (latKin dtau d j + latPot vmin d j))
          + ∑ j in (insert (i - 1) (insert i ({i + 1} : Finset (ZMod n))))ᶜ,
            (latKin dtau d j + latPot vmin d j) := by
    intro d
    unfold latAction
    exact (Finset.sum_add_sum_compl _ _).symm
  have hexp : ∀ d : ZMod n → ℚ,
      ∑ j in insert (i - 1) (insert i ({i + 1} : Finset (ZMod n))),
        (latKin dtau d j + latPot vmin d j)
      = (latKin dtau d (i - 1) + latPot vmin d (i - 1))
        + ((latKin dtau d i + latPot vmin d i)
          + (latKin dtau d (i + 1) + latPot vmin d (i + 1))) := by
    intro d
    rw [Finset.sum_insert hm1, Finset.sum_insert hm2, Finset.sum_singleton]
  rw [hsplit c', hsplit c, hcompl, hexp c', hexp c]
  unfold latKin latPot localAction
  rw [e1, e2, e3, e4, u_i, u_im2, u_im1, u_ip1, u_ip2]
  ring

theorem latAction_update_le {n : ℕ} [NeZero n] (dtau vmin : ℚ) (hn : 3 ≤ n)
    (c : ZMod n → ℚ) (i : ZMod n) (v : ℚ)
    (h : localAction dtau vmin c i v ≤ localAction dtau vmin c i (c i)) :
    latAction dtau vmin (Function.update c i v) ≤ latAction dtau vmin c := by
  have hkey := latAction_update dtau vmin hn c i v
  linarith

theorem coolSweep_action_le {n : ℕ} [NeZero n] (dtau vmin : ℚ) (hn : 3 ≤ n)
    (upd : (ZMod n → ℚ) → ZMod n → ℚ)
    (hupd : ∀ (c : ZMod n → ℚ) (i : ZMod n),
      localAction dtau vmin c i (upd c i) ≤ localAction dtau vmin c i (c i)) :
    ∀ c : ZMod n → ℚ, latAction dtau vmin (coolSweep upd c) ≤ latAction dtau vmin c := by
  have key : ∀ (l : List ℕ) (c : ZMod n → ℚ),
      latAction dtau vmin
        (l.foldl (fun (c : ZMod n → ℚ) (k : ℕ) =>
          Function.update c (k : ZMod n) (upd c (k : ZMod n))) c)
      ≤ latAction dtau vmin c := by
    intro l
    induction l with
    | nil => intro c; exact le_refl _
    | cons a t ih =>
      intro c
      rw [List.foldl_cons]
      exact le_trans (ih _)
        (latAction_update_le dtau vmin hn c (a : ZMod n) _ (hupd c _))
  intro c
  unfold coolSweep
  exact key (List.range n) c

/-- Claim C2: one cooling sweep does not increase the global Euclidean
action — for every configuration `c`,
`action(cool(c)) <= action(c) + eps` for any tolerance `eps >= 0` — and,
as in `cooled_monte_carlo_density`, the action recomputed after each of
the successive cooling sweeps forms a non-increasing sequence up to the
tolerance. -/
theorem cooling_sweep_action_nonincreasing (n : ℕ) [NeZero n]
    (dtau vmin eps : ℚ) (upd : (ZMod n → ℚ) → ZMod n → ℚ)
    (hn : 3 ≤ n) (heps : 0 ≤ eps)
    (hupd : ∀ (c : ZMod n → ℚ) (i : ZMod n),
      localAction dtau vmin c i (upd c i) ≤ localAction dtau vmin c i (c i)) :
    (∀ c : ZMod n → ℚ,
      latAction dtau vmin (coolSweep upd c) ≤ latAction dtau vmin c + eps)
    ∧ (∀ (c : ZMod n → ℚ) (k l : ℕ), k ≤ l →
        latAction dtau vmin ((coolSweep upd)^[l] c)
          ≤ latAction dtau vmin ((coolSweep upd)^[k] c) + eps) := by
  have hsweep := coolSweep_action_le dtau vmin hn upd hupd
  constructor
  · intro c
    have := hsweep c
    linarith
  · intro c k l hkl
    have mono : ∀ m : ℕ,
        latAction dtau vmin ((coolSweep upd)^[k + m] c)
          ≤ latAction dtau vmin ((coolSweep upd)^[k] c) := by
      intro m
      induction m with
      | zero => simp
      | succ mm ih =>
        have hiter : (coolSweep upd)^[k + (mm + 1)] c
            = coolSweep upd ((coolSweep upd)^[k + mm] c) := by
          rw [show k + (mm + 1) = (k + mm) + 1 from rfl]
          exact Function.iterate_succ_apply' (coolSweep upd) (k + mm) c
        rw [hiter]
        exact le_trans (hsweep _) ih
    have hfin := mono (l - k)
    rw [show k + (l - k) = l from by omega] at hfin
    linarith

/-- Witness for C2 on the three-site lattice with the identity update rule
(the current value is always a legal choice of the local minimiser
competition) and zero tolerance. -/
theorem cooling_sweep_action_nonincreasing_witness :
    ((3 : ℕ) ≤ 3 ∧ (0 : ℚ) ≤ 0
      ∧ (∀ (c : ZMod 3 → ℚ) (i : ZMod 3),
          localAction 1 1 c i ((fun (c : ZMod 3 → ℚ) (i : ZMod 3) => c i) c i)
            ≤ localAction 1 1 c i (c i)))
    ∧ latAction 1 1 (coolSweep (fun (c : ZMod 3 → ℚ) (i : ZMod 3) => c i)
        (fun _ : ZMod 3 => (0 : ℚ)))
      ≤ latAction 1 1 (fun _ : ZMod 3 => (0 : ℚ)) + 0 := by
  refine ⟨⟨by omega, le_refl 0, fun c i => le_refl _⟩, ?_⟩
  exact (cooling_sweep_action_nonincreasing 3 1 1 0
    (fun (c : ZMod 3 → ℚ) (i : ZMod 3) => c i) (by omega) (le_refl 0)
    (fun c i => le_refl _)).1 (fun _ : ZMod 3 => (0 : ℚ))

/- ----------------------------------------------------------------- -/
/- Claim C6                                                           -/
/- ----------------------------------------------------------------- -/

theorem getD_map_of_lt {α β : Type} [Inhabited β] (f : α → β) (l : List α)
    (i : ℕ) (d : β) (dflt : α) (h : i < l.length) :
    (l.map f).getD i d = f (l.getD i dflt) := by
  simp [List.getD_eq_getElem?_getD, List.getElem?_map, List.getElem?_eq_getElem h]

theorem getD_zip_of_lt (as bs : List ℝ) (i : ℕ) (h1 : i < as.length)
    (h2 : i < bs.length) :
    (as.zip bs).getD i (0, 0) = (as.getD i 0, bs.getD i 0) := by
  have hz : i < (as.zip bs).length := by rw [List.length_zip]; omega
  simp [List.getD_eq_getElem?_getD, List.getElem?_eq_getElem, hz, h1, h2,
    List.getElem_zip]

/-- Claim C6: for `n_samples >= 1`, the statistical aggregator returns,
per bin, `mean = sum/n_samples` and
`error = sqrt(max(0, sumsq/n_samples - mean^2)/n_samples)` with the
variance term clamped at zero; in particular for two samples `{a, b}` it
yields `mean = (a+b)/2` and `error = |a-b|/(2*sqrt 2)`, and for all-equal
samples it yields `error = 0`. -/
theorem stat_av_var_spec (n : ℕ) (sums sqs : List ℝ) (hn : n ≠ 0) :
    (∃ means errs, statAvVar sums sqs n = some (means, errs)
      ∧ (∀ i, i < sums.length → means.getD i 0 = sums.getD i 0 / (n : ℝ))
      ∧ (∀ i, i < sums.length → i < sqs.length →
          errs.getD i 0 = Real.sqrt
            (max 0 (sqs.getD i 0 / (n : ℝ) - (sums.getD i 0 / (n : ℝ)) ^ 2)
              / (n : ℝ))))
    ∧ (∀ a b : ℝ, statAvVar [a + b] [a ^ 2 + b ^ 2] 2
        = some ([(a + b) / 2], [|a - b| / (2 * Real.sqrt 2)]))
    ∧ (∀ a : ℝ, statAvVar [(n : ℝ) * a] [(n : ℝ) * a ^ 2] n
        = some ([a], [0])) := by
  have hcast : ((n : ℝ)) ≠ 0 := Nat.cast_ne_zero.mpr hn
  refine ⟨?_, ?_, ?_⟩
  · refine ⟨sums.map (fun s => s / (n : ℝ)),
      (sums.zip sqs).map (fun p =>
        Real.sqrt (max 0 (p.2 / (n : ℝ) - (p.1 / (n : ℝ)) ^ 2) / (n : ℝ))),
      ?_, ?_, ?_⟩
    · unfold statAvVar
      rw [if_neg hn]
    · intro i hi
      exact getD_map_of_lt _ sums i 0 0 hi
    · intro i hi1 hi2
      have hz : i < (sums.zip sqs).length := by rw [List.length_zip]; omega
      rw [getD_map_of_lt _ (sums.zip sqs) i 0 (0, 0) hz, getD_zip_of_lt sums sqs i hi1 hi2]
  · intro a b
    unfold statAvVar
    rw [if_neg (by norm_num : (2 : ℕ) ≠ 0)]
    have hmean : (a + b) / ((2 : ℕ) : ℝ) = (a + b) / 2 := by norm_num
    have hvar : max 0 ((a ^ 2 + b ^ 2) / ((2 : ℕ) : ℝ)
        - ((a + b) / ((2 : ℕ) : ℝ)) ^ 2) = ((a - b) / 2) ^ 2 := by
      have h : (a ^ 2 + b ^ 2) / ((2 : ℕ) : ℝ) - ((a + b) / ((2 : ℕ) : ℝ)) ^ 2
          = ((a - b) / 2) ^ 2 := by
        push_cast
        ring
      rw [h, max_eq_right (sq_nonneg _)]
    have herr : Real.sqrt (((a - b) / 2) ^ 2 / ((2 : ℕ) : ℝ))
        = |a - b| / (2 * Real.sqrt 2) := by
      have h2 : (Real.sqrt 2) ^ 2 = 2 := Real.sq_sqrt (by norm_num)
      have h8 : (|a - b| / (2 * Real.sqrt 2)) ^ 2 = ((a - b) / 2) ^ 2 / ((2 : ℕ) : ℝ) := by
        rw [div_pow, mul_pow, sq_abs, h2]
        push_cast
        ring
      rw [← h8, Real.sqrt_sq (by positivity)]
    simp only [List.zip_cons_cons, List.zip_nil_right, List.map_cons, List.map_nil]
    rw [hvar, herr, hmean]
  · intro a
    unfold statAvVar
    rw [if_neg hn]
    have hmean : (n : ℝ) * a / (n : ℝ) = a := mul_div_cancel_left₀ a hcast
    have hvar : max 0 ((n : ℝ) * a ^ 2 / (n : ℝ) - ((n : ℝ) * a / (n : ℝ)) ^ 2) = 0 := by
      rw [hmean, mul_div_cancel_left₀ _ hcast]
      simp
    simp only [List.zip_cons_cons, List.zip_nil_right, List.map_cons, List.map_nil]
    rw [hvar, hmean, zero_div, Real.sqrt_zero]

/-- Witness for C6 at `n_samples = 2` with the two samples `{1, 0}`. -/
theorem stat_av_var_spec_witness :
    ((2 : ℕ) ≠ 0)
    ∧ statAvVar [(1 : ℝ) + 0] [(1 : ℝ) ^ 2 + 0 ^ 2] 2
        = some ([((1 : ℝ) + 0) / 2], [|(1 : ℝ) - 0| / (2 * Real.sqrt 2)]) := by
  refine ⟨by decide, ?_⟩
  exact (stat_av_var_spec 2 [] [] (by decide)).2.1 1 0

/-- Witness for C9: the odd centre count `m = 3` makes the histogram loop
read index `3`, one element past the end of the centre array. -/
theorem hist_loop_bounds_iff_even_witness :
    (3 % 2 = 1) ∧ (3 : ℕ) ∈ histReads 3 := by
  refine ⟨by decide, ?_⟩
  exact (hist_loop_bounds_iff_even 3).2.1 (by decide)

/- ----------------------------------------------------------------- -/
/- Claim C7                                                           -/
/- ----------------------------------------------------------------- -/

/-- Claim C7: in both instanton-liquid-model drivers the centre count
`n_ia` is computed once per run from the two-loop semiclassical density
formula, and every Monte Carlo sweep builds its ansatz from exactly that
many centres: the run performs `n_mc_sweeps` sweeps and every sweep's
centre list has length `n_ia` (never resampled between sweeps). -/
theorem ilm_center_count_fixed (draw : ℕ → ℕ → ℚ) (vmin action0 dtau : ℝ)
    (nLattice nMcSweeps nHeating : ℕ) :
    ((randomILMCenters draw vmin action0 dtau nLattice nMcSweeps).length = nMcSweeps
      ∧ (∀ cs ∈ randomILMCenters draw vmin action0 dtau nLattice nMcSweeps,
          cs.length = nIaRandom vmin action0 dtau nLattice))
    ∧ ((heatedILMCenters draw vmin dtau nLattice nMcSweeps nHeating).length = nMcSweeps
      ∧ (∀ cs ∈ heatedILMCenters draw vmin dtau nLattice nMcSweeps nHeating,
          cs.length = nIaHeated vmin dtau nLattice)) := by
  constructor
  · constructor
    · simp [randomILMCenters]
    · intro cs hcs
      unfold randomILMCenters at hcs
      rw [List.mem_map] at hcs
      obtain ⟨i, _, rfl⟩ := hcs
      simp [rilmMonteCarloStep]
  · constructor
    · simp [heatedILMCenters]
    · intro cs hcs
      unfold heatedILMCenters at hcs
      rw [List.mem_map] at hcs
      obtain ⟨i, _, rfl⟩ := hcs
      simp [rilmHeatedMonteCarloStep]

/-- Witness for C7: the single sweep of a one-sweep random-driver run is
in the run and uses exactly `n_ia` centres. -/
theorem ilm_center_count_fixed_witness :
    rilmMonteCarloStep (fun _ => (0 : ℚ)) (nIaRandom 1 1 1 1)
      ∈ randomILMCenters (fun _ _ => (0 : ℚ)) 1 1 1 1 1
    ∧ (rilmMonteCarloStep (fun _ => (0 : ℚ)) (nIaRandom 1 1 1 1)).length
      = nIaRandom 1 1 1 1 := by
  have hmem : rilmMonteCarloStep (fun _ => (0 : ℚ)) (nIaRandom 1 1 1 1)
      ∈ randomILMCenters (fun _ _ => (0 : ℚ)) 1 1 1 1 1 :=
    List.mem_map.mpr ⟨0, List.mem_range.mpr (by norm_num), rfl⟩
  exact ⟨hmem,
    (ilm_center_count_fixed (fun _ _ => (0 : ℚ)) 1 1 1 1 1 0).1.2 _ hmem⟩

/- ----------------------------------------------------------------- -/
/- Claim C10                                                          -/
/- ----------------------------------------------------------------- -/

/-- Claim C10: every cooling event operates on a copy of the sampler's
configuration: the chain configuration returned by a cooling event is the
one it was given, and consequently the chain configuration produced by the
post-equilibration loop with cooling events equals the plain iteration of
the Metropolis sweeps alone — cooling diagnostics never feed back into the
Monte Carlo trajectory. -/
theorem cooling_event_preserves_chain (metro : ℕ → List ℚ → List ℚ)
    (cool : List ℚ → List ℚ) (nBtw nCoolingSweeps nPost : ℕ) (x0 : List ℚ) :
    (∀ x, (coolingEvent cool nCoolingSweeps x).1 = x)
    ∧ (mcLoop metro cool nBtw nCoolingSweeps nPost x0).1
        = (List.range nPost).foldl (fun x iMc => metro iMc x) x0 := by
  refine ⟨fun x => rfl, ?_⟩
  have key : ∀ (l : List ℕ) (st : List ℚ × ℕ × List (List ℚ)),
      (l.foldl (fun st iMc =>
        let x := metro iMc st.1
        if iMc % nBtw = 0 then
          let ev := coolingEvent cool nCoolingSweeps x
          (ev.1, st.2.1 + 1, st.2.2 ++ ev.2)
        else (x, st.2.1, st.2.2)) st).1
      = l.foldl (fun x iMc => metro iMc x) st.1 := by
    intro l
    induction l with
    | nil => intro st; rfl
    | cons a t ih =>
      intro st
      rw [List.foldl_cons, List.foldl_cons, ih]
      congr 1
      by_cases h : a % nBtw = 0
      · simp [h, coolingEvent]
      · simp [h]
  exact key (List.range nPost) (x0, 0, [])
